import Mathlib

/-
Verification of the text-extraction core of the med-ai repository
(`ai_service/app/services/ocr.py`, class `OCRService`).

The Python methods are shallowly embedded as pure Lean functions.  External
collaborators (the OpenAI vision client, the Tesseract recognizer, PyMuPDF's
per-page text layer, python-docx's paragraph stream) are modelled as oracle
inputs: each embedded function takes the values those collaborators would
return, and an exception raised by a collaborator is modelled as `none`.
Confidence arithmetic (Python float division of small integer sums) is
modelled exactly over `ℚ`.

Python's string primitives are embedded as executable functions over the
character list of a `String`: `strip` models `str.strip()`, `lower` models
`str.lower()`, `endswith` models `str.endswith`, `join` models
`sep.join(...)`, and `String.length` models `len(...)`.
-/

namespace OCRService

/-- Model of Python `str.strip()`: drop whitespace characters from both
ends. -/
def strip (s : String) : String :=
  ⟨((s.data.dropWhile Char.isWhitespace).reverse.dropWhile Char.isWhitespace).reverse⟩

/-- Model of Python `str.lower()`: lowercase every character. -/
def lower (s : String) : String :=
  ⟨s.data.map Char.toLower⟩

/-- Model of Python `str.endswith(suffix)`. -/
def endswith (s suffix : String) : Bool :=
  suffix.data.isSuffixOf s.data

/-- Model of Python `sep.join(texts)`. -/
def join (sep : String) : List String → String
  | [] => ""
  | [x] => x
  | x :: y :: xs => x ++ sep ++ join sep (y :: xs)

/-! ## Format Dispatcher (`OCRService.extract_text`) -/

/-- The three extraction handlers `extract_text` can route to. -/
inductive Handler where
  | pdf
  | docx
  | image
deriving DecidableEq, Repr

/-- The error message raised by `extract_text` for an unsupported suffix
(`raise ValueError(...)` in the source), naming the allowed set. -/
def unsupportedMessage : String :=
  "Unsupported file type. Only PDF, DOCX, PNG, JPG, and JPEG are allowed."

/-- Embedding of `OCRService.extract_text`: lowercase the filename, test the
suffix against `.pdf`, `.docx`, then the image suffixes, in source order;
route to the matching handler, otherwise fail with `unsupportedMessage`.
`Except.error` models the raised `ValueError`: no handler is invoked. -/
def extract_text (filename : String) : Except String Handler :=
  let f := lower filename
  if endswith f ".pdf" then .ok .pdf
  else if endswith f ".docx" then .ok .docx
  else if endswith f ".png" || endswith f ".jpg" || endswith f ".jpeg" then .ok .image
  else .error unsupportedMessage

/-! ## Flat-text reader (`OCRService._extract_from_docx`) -/

/-- Embedding of `OCRService._extract_from_docx`.  The oracle input is the
document's paragraph stream (`document.paragraphs`, each paragraph's `.text`).
The loop strips each paragraph, appends the non-empty ones in order, and the
result joins them with a newline. -/
def _extract_from_docx (paragraphs : List String) : String :=
  let texts := paragraphs.foldl
    (fun acc p => let t := strip p; if t ≠ "" then acc ++ [t] else acc) []
  join "\n" texts

/-! ## Preprocessing (`_preprocess_image`, `_preprocess_for_handwritten`)

Only the resize step (Step 2 of both methods) changes the array shape; the
remaining steps (grayscale conversion, CLAHE, deskew via `warpAffine` with the
same `(w, h)`, filtering, thresholding, morphology, sharpening) all preserve
the height and width of their input.  The shape of the output of either
preprocessing method therefore equals the output of its resize step, which is
what we embed.  `new_height = int(height * scale)` truncates a float product;
for the width claims only the width component matters, and we model the height
with `Nat` floor division. -/

/-- The `(height, width)` of a numpy image array (`img_array.shape[:2]`). -/
structure Shape where
  height : Nat
  width : Nat
deriving DecidableEq, Repr

/-- Shape effect of `OCRService._preprocess_image` (Printed profile):
if `width < 1000`, resize to width `1000`, scaling the height. -/
def _preprocess_image_shape (s : Shape) : Shape :=
  if s.width < 1000 then ⟨s.height * 1000 / s.width, 1000⟩ else s

/-- Shape effect of `OCRService._preprocess_for_handwritten` (Handwritten
profile): if `width < 1500`, resize to width `1500`, scaling the height. -/
def _preprocess_for_handwritten_shape (s : Shape) : Shape :=
  if s.width < 1500 then ⟨s.height * 1500 / s.width, 1500⟩ else s

/-! ## Local recognition sweep (`OCRService._ocr_with_multiple_psm`) -/

/-- One invocation of the local recognizer for a given segmentation mode:
the raw text of `image_to_string` and the per-token confidence column of
`image_to_data` (the value `-1` marks a token with no confidence data). -/
structure PsmRun where
  text : String
  conf : List Int
deriving DecidableEq, Repr

/-- The fixed ordered segmentation-mode list `psm_modes = [3, 6, 11, 4]`. -/
def psm_modes : List Nat := [3, 6, 11, 4]

/-- Mean confidence of one run: drop the `-1` entries, then
`sum(confidences) / len(confidences)` (`0` if none remain). -/
def meanConf (conf : List Int) : ℚ :=
  let cs := conf.filter (fun c => c ≠ -1)
  if cs.length = 0 then 0 else (cs.map (fun c => (c : ℚ))).sum / (cs.length : ℚ)

/-- One iteration of the `for psm in psm_modes` loop.  A raising mode
(`none`) is skipped; otherwise the tracked best is replaced exactly when the
run's mean confidence strictly exceeds the current `max_confidence` and the
run's text is non-blank (`text.strip()` truthy). -/
def sweepStep (acc : String × ℚ) (run : Option PsmRun) : String × ℚ :=
  match run with
  | none => acc
  | some r =>
      if meanConf r.conf > acc.2 ∧ strip r.text ≠ "" then (r.text, meanConf r.conf) else acc

/-- Embedding of `OCRService._ocr_with_multiple_psm`.  The oracle `engine`
gives, for each segmentation mode, either the recognizer's run (`some`) or
`none` when the invocation raised.  The tracker starts at
`best_text = ""`, `max_confidence = 0`, and the final `best_text` is
stripped. -/
def _ocr_with_multiple_psm (engine : Nat → Option PsmRun) : String :=
  strip (psm_modes.foldl (fun acc p => sweepStep acc (engine p)) ("", 0)).1

/-! ## Image extraction pipeline (`OCRService._extract_from_image`) -/

/-- Oracle inputs of one `_extract_from_image` call:
`openaiConfigured` models `self.openai_client` being non-`None`;
`visionResult` the return of `_extract_with_openai_vision` (`none` when the
API call failed and the method returned `None`); `stdSweep` / `handSweep` the
values of `text1` / `text2` (`none` when that try-block raised); and `rawOcr`
the raw output of the last-resort `pytesseract.image_to_string(image)`. -/
structure ImageEnv where
  openaiConfigured : Bool
  visionResult : Option String
  stdSweep : Option String
  handSweep : Option String
  rawOcr : String
deriving DecidableEq, Repr

/-- Python's `max(results, key=len)`: fold keeping the current maximum and
replacing it only on strictly greater length, so the first candidate of
maximal length wins. -/
def maxByLen (c : String) (rest : List String) : String :=
  rest.foldl (fun acc x => if x.length > acc.length then x else acc) c

/-- One `results.append(...)` guard of `_extract_from_image`: a sweep outcome
contributes itself when it exists and strips to non-empty, nothing
otherwise. -/
def keepNonBlank (o : Option String) : List String :=
  match o with
  | some t => if strip t ≠ "" then [t] else []
  | none => []

/-- The `results` list built by `_extract_from_image`: `text1` then `text2`,
each appended only when it strips to non-empty. -/
def sweepCandidates (env : ImageEnv) : List String :=
  keepNonBlank env.stdSweep ++ keepNonBlank env.handSweep

/-- Strategy 2 onward of `_extract_from_image`: build `results`, return
`max(results, key=len)` when non-empty, else the stripped last-resort
`image_to_string` output. -/
def imageLocalPath (env : ImageEnv) : String :=
  match sweepCandidates env with
  | [] => strip env.rawOcr
  | r :: rs => maxByLen r rs

/-- Embedding of `OCRService._extract_from_image`.  The second component
records whether the local Tesseract path (Strategy 2 onward) was entered:
`false` exactly when the vision short-circuit returned.  Strategy 1 returns
`vision_text` when the client is configured, the result is truthy, and its
stripped length exceeds 20. -/
def _extract_from_image (env : ImageEnv) : String × Bool :=
  match env.openaiConfigured, env.visionResult with
  | true, some vt =>
      if vt ≠ "" ∧ (strip vt).length > 20 then (vt, false)
      else (imageLocalPath env, true)
  | true, none => (imageLocalPath env, true)
  | false, _ => (imageLocalPath env, true)

/-- The Result Selector component: the candidate-selection step of
`_extract_from_image` in isolation, i.e. the non-blank guard under which a
candidate enters `results` together with `max(results, key=len)`; when no
candidate survives, selection contributes nothing (the pipeline then falls
back), modelled as the empty string. -/
def select (candidates : List String) : String :=
  match candidates.filter (fun t => strip t ≠ "") with
  | [] => ""
  | r :: rs => maxByLen r rs

/-! ## PDF page reader (`OCRService._extract_from_pdf`) -/

/-- Oracle inputs for one PDF page: `directText` is `page.get_text()`,
`vision` the return of `_extract_with_openai_vision` on the page's 300-DPI
rasterization, and `psm6` the raw output of the single
`image_to_string(processed_image, config='--oem 3 --psm 6')` fallback. -/
structure PdfPage where
  directText : String
  vision : Option String
  psm6 : String
deriving DecidableEq, Repr

/-- One iteration of the page loop of `_extract_from_pdf`: the optional text
appended for the page, and whether the page was rasterized
(`page.get_pixmap(dpi=300)` reached).  Direct text that strips to non-empty
is appended with no rasterization; otherwise the page is rasterized, a truthy
vision result is appended when the client is configured, and else the
stripped PSM-6 Tesseract text is appended when non-empty. -/
def _pdf_page (cfg : Bool) (p : PdfPage) : Option String × Bool :=
  let pt := strip p.directText
  if pt ≠ "" then (some pt, false)
  else
    let visionHit : Option String :=
      if cfg then
        match p.vision with
        | some vt => if vt ≠ "" then some vt else none
        | none => none
      else none
    match visionHit with
    | some vt => (some vt, true)
    | none =>
        let ocr := strip p.psm6
        if ocr ≠ "" then (some ocr, true) else (none, true)

/-- Embedding of `OCRService._extract_from_pdf`: process the pages in order,
join the appended texts with a blank line, and count rasterized pages. -/
def _extract_from_pdf (cfg : Bool) (pages : List PdfPage) : String × Nat :=
  let rs := pages.map (_pdf_page cfg)
  (join "\n\n" (rs.filterMap (fun r => r.1)),
   rs.countP (fun r => r.2))

/-! ## Specification-side definitions

These definitions follow the spec's words (first candidate of maximal
length, mode of strictly highest mean confidence); the theorems below compare
them with the embedded code. -/

/-- Running maximum of string lengths, seeded with `n`. -/
def maxLenFrom (n : Nat) (l : List String) : Nat :=
  l.foldl (fun m x => Nat.max m x.length) n

/-- The Result Selector as the spec describes it: among the non-empty
candidates, the one of greatest string length, the first such in input order
on ties; the empty string when no candidate is non-empty. -/
def selectSpec (candidates : List String) : String :=
  match (candidates.filter (fun t => t ≠ "")).find? (fun x =>
      x.length == maxLenFrom 0 (candidates.filter (fun t => t ≠ ""))) with
  | some r => r
  | none => ""

/-- Running maximum of mean confidences over the non-blank-text runs, seeded
with `b`. -/
def maxConfFrom (b : ℚ) (l : List PsmRun) : ℚ :=
  l.foldl (fun m r => if strip r.text ≠ "" then max m (meanConf r.conf) else m) b

/-- The body of the sweep loop of `_ocr_with_multiple_psm`, as a fold over
the runs of the non-raising modes. -/
def sweepGo (acc : String × ℚ) (l : List PsmRun) : String × ℚ :=
  l.foldl (fun a r =>
    if meanConf r.conf > a.2 ∧ strip r.text ≠ "" then (r.text, meanConf r.conf) else a) acc

/-- The segmentation sweep as the (amended) spec describes it: among the
non-raising modes whose text is non-blank, the first run whose mean confidence
equals the maximum mean confidence, provided that maximum is positive; the
empty string otherwise.  The chosen run's text is returned stripped. -/
def sweepBest (engine : Nat → Option PsmRun) : String :=
  if 0 < maxConfFrom 0 (psm_modes.filterMap engine) then
    match (psm_modes.filterMap engine).find? (fun r =>
        decide (strip r.text ≠ "") &&
        decide (meanConf r.conf = maxConfFrom 0 (psm_modes.filterMap engine))) with
    | some r => strip r.text
    | none => ""
  else ""

/-- Concrete recognizer oracle for the C5 counterexample: every mode returns
the non-blank text `"a"` with confidence column `[-1]` (mean confidence 0). -/
def engC5 : Nat → Option PsmRun := fun _ => some ⟨"a", [-1]⟩

/-- Concrete recognizer oracle for the C10 witness: every mode returns the
non-blank text `" x"` with confidence column `[-1]` (mean confidence 0). -/
def engC10 : Nat → Option PsmRun := fun _ => some ⟨" x", [-1]⟩

/-! ## Theorems -/

/-- C1: `extract_text` matches the lowercased filename suffix against the
fixed table and routes to exactly one handler (`.pdf` to the PDF page reader,
`.docx` to the flat-text reader, `.png`/`.jpg`/`.jpeg` to the image
extraction pipeline); for any other suffix it raises the error naming the
allowed set, and no handler is invoked on such an input. -/
theorem extract_text_dispatch (f : String) :
    (endswith (lower f) ".pdf" = true → extract_text f = .ok .pdf) ∧
    (endswith (lower f) ".pdf" = false → endswith (lower f) ".docx" = true →
      extract_text f = .ok .docx) ∧
    (endswith (lower f) ".pdf" = false → endswith (lower f) ".docx" = false →
      (endswith (lower f) ".png" || endswith (lower f) ".jpg" ||
        endswith (lower f) ".jpeg") = true →
      extract_text f = .ok .image) ∧
    (endswith (lower f) ".pdf" = false → endswith (lower f) ".docx" = false →
      (endswith (lower f) ".png" || endswith (lower f) ".jpg" ||
        endswith (lower f) ".jpeg") = false →
      extract_text f = .error unsupportedMessage) := by
  refine ⟨fun h1 => ?_, fun h1 h2 => ?_, fun h1 h2 h3 => ?_, fun h1 h2 h3 => ?_⟩
  · simp [extract_text, h1]
  · simp [extract_text, h1, h2]
  · simp [extract_text, h1, h2, h3]
  · simp [extract_text, h1, h2, h3]

/-- Witness for C1 at the unsupported input `"diagram.bmp"`. -/
theorem extract_text_dispatch_witness :
    endswith (lower "diagram.bmp") ".pdf" = false ∧
    endswith (lower "diagram.bmp") ".docx" = false ∧
    (endswith (lower "diagram.bmp") ".png" || endswith (lower "diagram.bmp") ".jpg" ||
      endswith (lower "diagram.bmp") ".jpeg") = false ∧
    extract_text "diagram.bmp" = .error unsupportedMessage :=
  ⟨by decide, by decide, by decide,
    (extract_text_dispatch "diagram.bmp").2.2.2 (by decide) (by decide) (by decide)⟩

/-- C2: when the vision client is configured and returns a result whose
stripped length exceeds 20 characters, `_extract_from_image` returns that
text immediately and the local Tesseract path (in particular the
`_ocr_with_multiple_psm` sweep) is never entered. -/
theorem image_vision_short_circuit (env : ImageEnv) (vt : String)
    (hcfg : env.openaiConfigured = true) (hv : env.visionResult = some vt)
    (hlen : 20 < (strip vt).length) :
    _extract_from_image env = (vt, false) := by
  have hne : vt ≠ "" := by
    intro h
    rw [h] at hlen
    exact absurd hlen (by decide)
  obtain ⟨cfg, vr, std, hand, raw⟩ := env
  dsimp only at hcfg hv
  subst hcfg
  subst hv
  show (if vt ≠ "" ∧ (strip vt).length > 20 then (vt, false) else _) = (vt, false)
  rw [if_pos ⟨hne, hlen⟩]

/-- Witness for C2: a configured client returning a 21-character result
short-circuits the pipeline. -/
theorem image_vision_short_circuit_witness :
    20 < (strip "abcdefghijklmnopqrstu").length ∧
    _extract_from_image ⟨true, some "abcdefghijklmnopqrstu", none, none, ""⟩ =
      ("abcdefghijklmnopqrstu", false) :=
  ⟨by decide, image_vision_short_circuit _ _ rfl rfl (by decide)⟩

/-- Counterexample for C3: a scanned page whose 300-DPI rasterization makes
the vision client return `"hi"` while Tesseract finds nothing anywhere.  The
scanned-page path of `_extract_from_pdf` appends `"hi"` (no 20-character
threshold), but `_extract_from_image` on the same oracle values rejects the
short vision result and returns `""`: the two paths are not equivalent. -/
theorem pdf_scanned_path_cex :
    _pdf_page true ⟨"", some "hi", ""⟩ = (some "hi", true) ∧
    (_extract_from_image ⟨true, some "hi", some "", some "", ""⟩).1 = "" ∧
    ("hi" : String) ≠ "" :=
  ⟨by decide, by decide, by decide⟩

/-- C3 amended: for a PDF page whose direct text strips to empty, the page
reader rasterizes the page and does not delegate to `_extract_from_image`:
with the client configured and the vision result non-empty it appends that
text directly, with no 20-character threshold; otherwise (client not
configured, vision call failed, or vision result empty) it appends the
stripped single PSM-6 Tesseract pass over the Printed-profile preprocessing
when that strips to non-empty, and nothing when it strips to empty — no
segmentation sweep, no handwritten profile, no Result Selector, and no
last-resort raw OCR (none of which are even inputs of the page loop). -/
theorem pdf_scanned_path_spec (cfg : Bool) (p : PdfPage)
    (hd : strip p.directText = "") :
    (∀ vt, cfg = true → p.vision = some vt → vt ≠ "" →
      _pdf_page cfg p = (some vt, true)) ∧
    ((cfg = false ∨ p.vision = none ∨ p.vision = some "") →
      _pdf_page cfg p =
        ((if strip p.psm6 ≠ "" then some (strip p.psm6) else none), true)) := by
  constructor
  · intro vt hcfg hv hne
    subst hcfg
    unfold _pdf_page
    rw [hd]
    simp [hv, hne]
  · intro hmiss
    unfold _pdf_page
    rw [hd]
    have hhit : (if cfg then
        match p.vision with
        | some vt => if vt ≠ "" then some vt else none
        | none => none
      else none) = (none : Option String) := by
      rcases hmiss with hc | hv | hv
      · rw [hc]
        rfl
      · rw [hv]
        cases cfg <;> rfl
      · rw [hv]
        cases cfg <;> simp
    simp only [ne_eq, hd, not_true_eq_false, if_false, hhit]
    by_cases ho : strip p.psm6 = "" <;> simp [ho]

/-- Witness for the amended C3: one scanned page exercising the
no-threshold vision append and one exercising the PSM-6 fallback. -/
theorem pdf_scanned_path_spec_witness :
    strip ("" : String) = "" ∧ ("hi" : String) ≠ "" ∧
    _pdf_page true ⟨"", some "hi", ""⟩ = (some "hi", true) ∧
    _pdf_page true ⟨"", none, " ok "⟩ = (some "ok", true) :=
  ⟨rfl, by decide,
    (pdf_scanned_path_spec true ⟨"", some "hi", ""⟩ rfl).1 "hi" rfl rfl (by decide),
    by
      rw [(pdf_scanned_path_spec true ⟨"", none, " ok "⟩ rfl).2 (Or.inr (Or.inl rfl))]
      decide⟩

/-- Helper: a page whose direct text strips to non-empty is appended directly
and never rasterized. -/
theorem _pdf_page_direct (cfg : Bool) (p : PdfPage) (h : strip p.directText ≠ "") :
    _pdf_page cfg p = (some (strip p.directText), false) := by
  unfold _pdf_page
  rw [if_pos h]

/-- C7: for a PDF in which every page's direct text strips to non-empty,
`_extract_from_pdf` appends each page's stripped text, rasterizes zero pages
(so neither the image pipeline nor any recognizer is invoked), and joins the
per-page texts in page order with a blank line. -/
theorem pdf_digital_no_raster (cfg : Bool) (pages : List PdfPage)
    (h : ∀ p ∈ pages, strip p.directText ≠ "") :
    _extract_from_pdf cfg pages =
      (join "\n\n" (pages.map (fun p => strip p.directText)), 0) := by
  unfold _extract_from_pdf
  have hmap : pages.map (_pdf_page cfg) =
      pages.map (fun p => (some (strip p.directText), false)) :=
    List.map_congr_left (fun p hp => _pdf_page_direct cfg p (h p hp))
  rw [hmap]
  simp only [List.filterMap_map, List.countP_map, Function.comp_def]
  rw [show (fun p : PdfPage => some (strip p.directText)) =
        some ∘ (fun p : PdfPage => strip p.directText) from rfl,
      List.filterMap_eq_map]
  simp [List.countP_eq_zero]

/-- Witness for C7 at a concrete two-page digital PDF. -/
theorem pdf_digital_no_raster_witness :
    (∀ p ∈ [(⟨"A", none, ""⟩ : PdfPage), ⟨" B ", none, ""⟩], strip p.directText ≠ "") ∧
    _extract_from_pdf false [⟨"A", none, ""⟩, ⟨" B ", none, ""⟩] = ("A\n\nB", 0) :=
  ⟨by decide, by
    rw [pdf_digital_no_raster false _ (by decide)]
    decide⟩

/-- C8: for either preprocessing profile, the resize step's output width is
at least the profile's configured minimum (1000 px Printed, 1500 px
Handwritten) and at least the input width (never downscales), and an input
already at least the minimum width is left unchanged. -/
theorem preprocess_min_width (s : Shape) (h : 0 < s.width) :
    (1000 ≤ (_preprocess_image_shape s).width ∧
      s.width ≤ (_preprocess_image_shape s).width ∧
      (1000 ≤ s.width → _preprocess_image_shape s = s)) ∧
    (1500 ≤ (_preprocess_for_handwritten_shape s).width ∧
      s.width ≤ (_preprocess_for_handwritten_shape s).width ∧
      (1500 ≤ s.width → _preprocess_for_handwritten_shape s = s)) := by
  constructor
  · by_cases h1 : s.width < 1000
    · rw [show _preprocess_image_shape s = ⟨s.height * 1000 / s.width, 1000⟩ from if_pos h1]
      exact ⟨le_refl 1000, Nat.le_of_lt h1, fun hc => absurd hc (by omega)⟩
    · rw [show _preprocess_image_shape s = s from if_neg h1]
      exact ⟨by omega, le_refl _, fun _ => rfl⟩
  · by_cases h2 : s.width < 1500
    · rw [show _preprocess_for_handwritten_shape s = ⟨s.height * 1500 / s.width, 1500⟩ from
        if_pos h2]
      exact ⟨le_refl 1500, Nat.le_of_lt h2, fun hc => absurd hc (by omega)⟩
    · rw [show _preprocess_for_handwritten_shape s = s from if_neg h2]
      exact ⟨by omega, le_refl _, fun _ => rfl⟩

/-- Witness for C8 at a concrete 800-px-wide input. -/
theorem preprocess_min_width_witness :
    0 < (⟨500, 800⟩ : Shape).width ∧
    ((1000 ≤ (_preprocess_image_shape ⟨500, 800⟩).width ∧
      (⟨500, 800⟩ : Shape).width ≤ (_preprocess_image_shape ⟨500, 800⟩).width ∧
      (1000 ≤ (⟨500, 800⟩ : Shape).width → _preprocess_image_shape ⟨500, 800⟩ = ⟨500, 800⟩)) ∧
    (1500 ≤ (_preprocess_for_handwritten_shape ⟨500, 800⟩).width ∧
      (⟨500, 800⟩ : Shape).width ≤ (_preprocess_for_handwritten_shape ⟨500, 800⟩).width ∧
      (1500 ≤ (⟨500, 800⟩ : Shape).width →
        _preprocess_for_handwritten_shape ⟨500, 800⟩ = ⟨500, 800⟩))) :=
  ⟨by decide, preprocess_min_width ⟨500, 800⟩ (by decide)⟩

/-- Helper: the paragraph loop of `_extract_from_docx` equals stripping every
paragraph and keeping the non-empty ones, in order. -/
theorem docx_loop (ps : List String) : ∀ acc : List String,
    ps.foldl (fun acc p => let t := strip p; if t ≠ "" then acc ++ [t] else acc) acc =
      acc ++ (ps.map strip).filter (fun t => t ≠ "") := by
  induction ps with
  | nil => intro acc; simp
  | cons p ps ih =>
      intro acc
      rw [List.foldl_cons]
      by_cases h : strip p = ""
      · rw [show (let t := strip p; if t ≠ "" then acc ++ [t] else acc) = acc from by simp [h]]
        rw [ih]
        simp [h]
      · rw [show (let t := strip p; if t ≠ "" then acc ++ [t] else acc) = acc ++ [strip p] from by
          simp [h]]
        rw [ih]
        simp [h]

/-- C9: `_extract_from_docx` strips each paragraph, drops the ones that strip
to empty, and joins the survivors with a newline preserving order; on
`["  Hello  ", "", "World"]` it yields exactly `"Hello\nWorld"`. -/
theorem docx_reader_spec :
    (∀ ps, _extract_from_docx ps =
      join "\n" ((ps.map strip).filter (fun t => t ≠ ""))) ∧
    _extract_from_docx ["  Hello  ", "", "World"] = "Hello\nWorld" := by
  constructor
  · intro ps
    unfold _extract_from_docx
    rw [docx_loop]
    simp
  · decide

/-- Helper: a running maximum is at least its seed. -/
theorem maxLenFrom_ge (l : List String) : ∀ n : Nat, n ≤ maxLenFrom n l := by
  induction l with
  | nil => intro n; exact le_refl n
  | cons x xs ih =>
      intro n
      have h0 : maxLenFrom n (x :: xs) = maxLenFrom (Nat.max n x.length) xs := rfl
      rw [h0]
      exact le_trans (Nat.le_max_left n x.length) (ih (Nat.max n x.length))

/-- Helper: Python's first-wins `max(..., key=len)` fold returns exactly the
first element of the list whose length equals the running maximum length. -/
theorem maxByLen_find (rest : List String) : ∀ c : String,
    (maxByLen c rest).length = maxLenFrom c.length rest ∧
    (c :: rest).find? (fun x => x.length == maxLenFrom c.length rest) =
      some (maxByLen c rest) := by
  induction rest with
  | nil =>
      intro c
      refine ⟨rfl, ?_⟩
      simp [maxByLen, maxLenFrom, List.find?]
  | cons x xs ih =>
      intro c
      by_cases hxc : x.length > c.length
      · have hstep : maxByLen c (x :: xs) = maxByLen x xs := by
          have h0 : maxByLen c (x :: xs) =
              maxByLen (if x.length > c.length then x else c) xs := rfl
          rw [h0, if_pos hxc]
        have hmax : maxLenFrom c.length (x :: xs) = maxLenFrom x.length xs := by
          have h0 : maxLenFrom c.length (x :: xs) =
              maxLenFrom (Nat.max c.length x.length) xs := rfl
          rw [h0]
          congr 1
          exact Nat.max_eq_right (Nat.le_of_lt hxc)
        obtain ⟨ihlen, ihfind⟩ := ih x
        refine ⟨by rw [hstep, hmax]; exact ihlen, ?_⟩
        rw [hstep, hmax]
        have hcM : c.length < maxLenFrom x.length xs :=
          lt_of_lt_of_le hxc (maxLenFrom_ge xs x.length)
        rw [List.find?_cons_of_neg _ (by simp only [beq_iff_eq]; exact Nat.ne_of_lt hcM)]
        exact ihfind
      · have hstep : maxByLen c (x :: xs) = maxByLen c xs := by
          have h0 : maxByLen c (x :: xs) =
              maxByLen (if x.length > c.length then x else c) xs := rfl
          rw [h0, if_neg hxc]
        have hmax : maxLenFrom c.length (x :: xs) = maxLenFrom c.length xs := by
          have h0 : maxLenFrom c.length (x :: xs) =
              maxLenFrom (Nat.max c.length x.length) xs := rfl
          rw [h0]
          congr 1
          exact Nat.max_eq_left (Nat.le_of_not_lt hxc)
        obtain ⟨ihlen, ihfind⟩ := ih c
        refine ⟨by rw [hstep, hmax]; exact ihlen, ?_⟩
        rw [hstep, hmax]
        by_cases hcM : c.length = maxLenFrom c.length xs
        · rw [List.find?_cons_of_pos _ (by simp only [beq_iff_eq]; exact hcM)]
          rw [List.find?_cons_of_pos _ (by simp only [beq_iff_eq]; exact hcM)] at ihfind
          exact ihfind
        · have h1 : c.length ≤ maxLenFrom c.length xs := maxLenFrom_ge xs c.length
          have h2 : x.length ≤ c.length := Nat.le_of_not_lt hxc
          rw [List.find?_cons_of_neg _ (by simp only [beq_iff_eq]; exact hcM)]
          rw [List.find?_cons_of_neg _ (by simp only [beq_iff_eq]; omega)]
          rw [List.find?_cons_of_neg _ (by simp only [beq_iff_eq]; exact hcM)] at ihfind
          exact ihfind

/-- C4: on any list of (already-stripped) candidates, the Result Selector
returns the non-empty candidate of greatest string length, the first in input
order on ties, and the empty string when no candidate is non-empty — exactly
`selectSpec`. -/
theorem result_selector_length_wins (cs : List String) (h : ∀ c ∈ cs, strip c = c) :
    select cs = selectSpec cs := by
  have hfil : cs.filter (fun t => strip t ≠ "") = cs.filter (fun t => t ≠ "") :=
    List.filter_congr (fun c hc => by rw [h c hc])
  unfold select selectSpec
  rw [hfil]
  cases hne : cs.filter (fun t => t ≠ "") with
  | nil => rfl
  | cons r rs =>
      have hM : maxLenFrom 0 (r :: rs) = maxLenFrom r.length rs := by
        have h0 : maxLenFrom 0 (r :: rs) = maxLenFrom (Nat.max 0 r.length) rs := rfl
        rw [h0]
        congr 1
        exact Nat.zero_max r.length
      rw [hM, (maxByLen_find rs r).2]

/-- Witness for C4: on `["ab", "xy", "c"]` the selector agrees with the
spec-side selector, and the tie between the two length-2 candidates goes to
the first one. -/
theorem result_selector_length_wins_witness :
    (∀ c ∈ ["ab", "xy", "c"], strip c = c) ∧
    select ["ab", "xy", "c"] = selectSpec ["ab", "xy", "c"] ∧
    select ["ab", "xy", "c"] = "ab" :=
  ⟨by decide, result_selector_length_wins _ (by decide), by decide⟩

/-- Helper: a running confidence maximum is at least its seed. -/
theorem maxConfFrom_ge (l : List PsmRun) : ∀ b : ℚ, b ≤ maxConfFrom b l := by
  induction l with
  | nil => intro b; exact le_refl b
  | cons r rs ih =>
      intro b
      have h0 : maxConfFrom b (r :: rs) =
          maxConfFrom (if strip r.text ≠ "" then max b (meanConf r.conf) else b) rs := rfl
      rw [h0]
      by_cases hg : strip r.text ≠ ""
      · rw [if_pos hg]
        exact le_trans (le_max_left _ _) (ih _)
      · rw [if_neg hg]
        exact ih b

/-- Helper: when every run's mean confidence is at most the seed, the running
maximum stays at the seed. -/
theorem maxConfFrom_le (l : List PsmRun) : ∀ b : ℚ,
    (∀ r ∈ l, meanConf r.conf ≤ b) → maxConfFrom b l = b := by
  induction l with
  | nil => intro b _; rfl
  | cons r rs ih =>
      intro b h
      have h0 : maxConfFrom b (r :: rs) =
          maxConfFrom (if strip r.text ≠ "" then max b (meanConf r.conf) else b) rs := rfl
      rw [h0]
      by_cases hg : strip r.text ≠ ""
      · rw [if_pos hg, max_eq_left (h r (List.mem_cons_self r rs))]
        exact ih b (fun r2 hr2 => h r2 (List.mem_cons_of_mem r hr2))
      · rw [if_neg hg]
        exact ih b (fun r2 hr2 => h r2 (List.mem_cons_of_mem r hr2))

/-- Helper: full characterization of the sweep fold.  If the running maximum
over the non-blank runs never exceeds the seed, the accumulator is unchanged;
otherwise the fold ends at the first non-blank run whose mean confidence
equals that maximum. -/
theorem sweepGo_spec (l : List PsmRun) : ∀ (bt : String) (bc : ℚ),
    (maxConfFrom bc l ≤ bc → sweepGo (bt, bc) l = (bt, bc)) ∧
    (bc < maxConfFrom bc l →
      ∃ r, l.find? (fun r => decide (strip r.text ≠ "") &&
            decide (meanConf r.conf = maxConfFrom bc l)) = some r ∧
        sweepGo (bt, bc) l = (r.text, meanConf r.conf) ∧
        meanConf r.conf = maxConfFrom bc l) := by
  induction l with
  | nil =>
      intro bt bc
      exact ⟨fun _ => rfl, fun hlt => absurd hlt (lt_irrefl bc)⟩
  | cons r rs ih =>
      intro bt bc
      by_cases hg : strip r.text ≠ ""
      · by_cases hcmp : bc < meanConf r.conf
        · have hstep : sweepGo (bt, bc) (r :: rs) = sweepGo (r.text, meanConf r.conf) rs := by
            have h0 : sweepGo (bt, bc) (r :: rs) =
                sweepGo (if meanConf r.conf > bc ∧ strip r.text ≠ ""
                  then (r.text, meanConf r.conf) else (bt, bc)) rs := rfl
            rw [h0, if_pos ⟨hcmp, hg⟩]
          have hMfull : maxConfFrom bc (r :: rs) = maxConfFrom (meanConf r.conf) rs := by
            have h0 : maxConfFrom bc (r :: rs) =
                maxConfFrom (if strip r.text ≠ "" then max bc (meanConf r.conf) else bc) rs := rfl
            rw [h0, if_pos hg, max_eq_right (le_of_lt hcmp)]
          obtain ⟨ih1, ih2⟩ := ih r.text (meanConf r.conf)
          constructor
          · intro hle
            exfalso
            rw [hMfull] at hle
            exact absurd (lt_of_lt_of_le hcmp (le_trans (maxConfFrom_ge rs _) hle))
              (lt_irrefl bc)
          · intro _
            rw [hMfull, hstep]
            by_cases hrs : maxConfFrom (meanConf r.conf) rs ≤ meanConf r.conf
            · have hMeq : maxConfFrom (meanConf r.conf) rs = meanConf r.conf :=
                le_antisymm hrs (maxConfFrom_ge rs _)
              refine ⟨r, ?_, ih1 hrs, hMeq.symm⟩
              rw [hMeq]
              exact List.find?_cons_of_pos _ (by simp [hg])
            · have hlt2 : meanConf r.conf < maxConfFrom (meanConf r.conf) rs :=
                not_le.mp hrs
              obtain ⟨r2, hfind2, hgo2, hconf2⟩ := ih2 hlt2
              refine ⟨r2, ?_, hgo2, hconf2⟩
              rw [List.find?_cons_of_neg _ (by simp [ne_of_lt hlt2])]
              exact hfind2
        · have hstep : sweepGo (bt, bc) (r :: rs) = sweepGo (bt, bc) rs := by
            have h0 : sweepGo (bt, bc) (r :: rs) =
                sweepGo (if meanConf r.conf > bc ∧ strip r.text ≠ ""
                  then (r.text, meanConf r.conf) else (bt, bc)) rs := rfl
            rw [h0, if_neg (fun hh => hcmp hh.1)]
          have hMfull : maxConfFrom bc (r :: rs) = maxConfFrom bc rs := by
            have h0 : maxConfFrom bc (r :: rs) =
                maxConfFrom (if strip r.text ≠ "" then max bc (meanConf r.conf) else bc) rs := rfl
            rw [h0, if_pos hg, max_eq_left (not_lt.mp hcmp)]
          obtain ⟨ih1, ih2⟩ := ih bt bc
          constructor
          · intro hle
            rw [hMfull] at hle
            rw [hstep]
            exact ih1 hle
          · intro hlt
            rw [hMfull] at hlt
            rw [hMfull]
            obtain ⟨r2, hfind2, hgo2, hconf2⟩ := ih2 hlt
            refine ⟨r2, ?_, by rw [hstep]; exact hgo2, hconf2⟩
            have hrle : meanConf r.conf ≤ bc := not_lt.mp hcmp
            rw [List.find?_cons_of_neg _ (by simp [ne_of_lt (lt_of_le_of_lt hrle hlt)])]
            exact hfind2
      · have hstep : sweepGo (bt, bc) (r :: rs) = sweepGo (bt, bc) rs := by
          have h0 : sweepGo (bt, bc) (r :: rs) =
              sweepGo (if meanConf r.conf > bc ∧ strip r.text ≠ ""
                then (r.text, meanConf r.conf) else (bt, bc)) rs := rfl
          rw [h0, if_neg (fun hh => hg hh.2)]
        have hMfull : maxConfFrom bc (r :: rs) = maxConfFrom bc rs := by
          have h0 : maxConfFrom bc (r :: rs) =
              maxConfFrom (if strip r.text ≠ "" then max bc (meanConf r.conf) else bc) rs := rfl
          rw [h0, if_neg hg]
        obtain ⟨ih1, ih2⟩ := ih bt bc
        constructor
        · intro hle
          rw [hMfull] at hle
          rw [hstep]
          exact ih1 hle
        · intro hlt
          rw [hMfull] at hlt
          rw [hMfull]
          obtain ⟨r2, hfind2, hgo2, hconf2⟩ := ih2 hlt
          refine ⟨r2, ?_, by rw [hstep]; exact hgo2, hconf2⟩
          rw [List.find?_cons_of_neg _ (by simp [hg])]
          exact hfind2

/-- Helper: the loop of `_ocr_with_multiple_psm` over the modes equals the
fold over the runs of the non-raising modes. -/
theorem sweep_fold_filterMap (engine : Nat → Option PsmRun) (l : List Nat) :
    ∀ acc : String × ℚ,
    l.foldl (fun acc p => sweepStep acc (engine p)) acc =
      sweepGo acc (l.filterMap engine) := by
  induction l with
  | nil => intro acc; rfl
  | cons p ps ih =>
      intro acc
      have h0 : (p :: ps).foldl (fun acc p => sweepStep acc (engine p)) acc =
          ps.foldl (fun acc p => sweepStep acc (engine p)) (sweepStep acc (engine p)) := rfl
      rw [h0]
      cases hp : engine p with
      | none =>
          have h1 : sweepStep acc none = acc := rfl
          have h2 : (p :: ps).filterMap engine = ps.filterMap engine := by
            rw [List.filterMap_cons, hp]
          rw [h1, h2]
          exact ih acc
      | some r =>
          have h1 : sweepStep acc (some r) =
              (if meanConf r.conf > acc.2 ∧ strip r.text ≠ ""
                then (r.text, meanConf r.conf) else acc) := rfl
          have h2 : (p :: ps).filterMap engine = r :: ps.filterMap engine := by
            rw [List.filterMap_cons, hp]
          have h3 : sweepGo acc (r :: ps.filterMap engine) =
              sweepGo (if meanConf r.conf > acc.2 ∧ strip r.text ≠ ""
                then (r.text, meanConf r.conf) else acc) (ps.filterMap engine) := rfl
          rw [h1, h2, h3]
          exact ih _

/-- Counterexample for C5: with every mode returning the non-blank text `"a"`
at mean confidence 0, the candidate of (tied) highest mean confidence among
the non-empty-text modes is `"a"` under the claim's first-encountered
tie-break, yet the sweep returns the empty string. -/
theorem sweep_zero_conf_cex :
    engC5 3 = some ⟨"a", [-1]⟩ ∧ engC5 6 = some ⟨"a", [-1]⟩ ∧
    engC5 11 = some ⟨"a", [-1]⟩ ∧ engC5 4 = some ⟨"a", [-1]⟩ ∧
    strip "a" ≠ "" ∧ meanConf [-1] = 0 ∧
    _ocr_with_multiple_psm engC5 = "" :=
  ⟨rfl, rfl, rfl, rfl, by decide, by decide, by decide⟩

/-- C5 amended: the sweep runs the recognizer once per mode of the fixed list
`[3, 6, 11, 4]`, skips raising modes, scores each run by the mean of its
confidence values after discarding `-1` entries (0 if none remain), and
returns the stripped text of the first non-blank run whose mean confidence
equals the maximum — provided that maximum is positive; otherwise it returns
the empty string. -/
theorem sweep_highest_confidence (engine : Nat → Option PsmRun) :
    _ocr_with_multiple_psm engine = sweepBest engine := by
  unfold _ocr_with_multiple_psm sweepBest
  rw [sweep_fold_filterMap engine psm_modes ("", 0)]
  by_cases hm : 0 < maxConfFrom 0 (psm_modes.filterMap engine)
  · obtain ⟨r, hfind, hgo, _⟩ := (sweepGo_spec (psm_modes.filterMap engine) "" 0).2 hm
    rw [hgo, hfind, if_pos hm]
  · have hz : maxConfFrom 0 (psm_modes.filterMap engine) ≤ 0 := not_lt.mp hm
    rw [(sweepGo_spec (psm_modes.filterMap engine) "" 0).1 hz, if_neg hm]
    rfl

/-- C10: the best-candidate tracker starts at confidence 0 and updates only
on strictly greater mean confidence, so when every mode yields non-blank text
with mean confidence 0, the sweep returns the empty string despite the
recognizer having produced text. -/
theorem sweep_zero_confidence_guard (engine : Nat → Option PsmRun)
    (h : ∀ p ∈ psm_modes, ∃ r, engine p = some r ∧ strip r.text ≠ "" ∧ meanConf r.conf = 0) :
    _ocr_with_multiple_psm engine = "" := by
  unfold _ocr_with_multiple_psm
  rw [sweep_fold_filterMap engine psm_modes ("", 0)]
  have hall : ∀ r ∈ psm_modes.filterMap engine, meanConf r.conf ≤ 0 := by
    intro r hr
    rw [List.mem_filterMap] at hr
    obtain ⟨p, hp, hep⟩ := hr
    obtain ⟨r2, he2, _, hc2⟩ := h p hp
    rw [he2] at hep
    have hr2 : r2 = r := Option.some.inj hep
    rw [← hr2]
    exact le_of_eq hc2
  have hz : maxConfFrom 0 (psm_modes.filterMap engine) ≤ 0 :=
    le_of_eq (maxConfFrom_le (psm_modes.filterMap engine) 0 hall)
  rw [(sweepGo_spec (psm_modes.filterMap engine) "" 0).1 hz]
  rfl

/-- Witness for C10 at a concrete all-zero-confidence oracle. -/
theorem sweep_zero_confidence_guard_witness :
    _ocr_with_multiple_psm engC10 = "" :=
  sweep_zero_confidence_guard engC10
    (fun _ _ => ⟨⟨" x", [-1]⟩, rfl, by decide, by decide⟩)

/-- Helper: everything produced by a `results.append(...)` guard strips to
non-empty. -/
theorem keepNonBlank_strip_ne (o : Option String) : ∀ t ∈ keepNonBlank o, strip t ≠ "" := by
  intro t ht
  cases o with
  | none => simp [keepNonBlank] at ht
  | some s =>
      by_cases hne : strip s = ""
      · simp [keepNonBlank, hne] at ht
      · simp [keepNonBlank, hne] at ht
        rw [ht]
        exact hne

/-- Helper: every sweep candidate strips to non-empty. -/
theorem sweepCandidates_strip_ne (env : ImageEnv) :
    ∀ t ∈ sweepCandidates env, strip t ≠ "" := by
  intro t ht
  unfold sweepCandidates at ht
  rcases List.mem_append.mp ht with h | h
  · exact keepNonBlank_strip_ne env.stdSweep t h
  · exact keepNonBlank_strip_ne env.handSweep t h

/-- Counterexample for C6: vision returns the 5-character `"short"` (at most
20 stripped characters, non-empty) and the sweeps produce only `"x"`.  Were
`"short"` handed to the Result Selector, length-wins selection would return
`"short"`; the pipeline instead returns `"x"`: the short vision result does
not participate in selection. -/
theorem image_short_vision_discarded_cex :
    (_extract_from_image ⟨true, some "short", some "x", some "", "zz"⟩).1 = "x" ∧
    select ["short", "x"] = "short" ∧
    ("x" : String) ≠ "short" :=
  ⟨by decide, by decide, by decide⟩

/-- C6 amended: when the vision result does not pass the 20-character
short-circuit, only the two preprocessing-profile sweep candidates are handed
to the Result Selector — the output is `select` of the sweep candidates (or
the stripped raw-OCR fallback when both are blank), independently of the
vision text. -/
theorem image_candidates_selection (env : ImageEnv) (vt : String)
    (hv : env.visionResult = some vt) (hshort : (strip vt).length ≤ 20) :
    _extract_from_image env =
      ((if sweepCandidates env = [] then strip env.rawOcr
        else select (sweepCandidates env)), true) := by
  have hloc : imageLocalPath env =
      (if sweepCandidates env = [] then strip env.rawOcr
        else select (sweepCandidates env)) := by
    unfold imageLocalPath select
    cases hc : sweepCandidates env with
    | nil => simp
    | cons r rs =>
        have hkeep : (r :: rs).filter (fun t => strip t ≠ "") = r :: rs :=
          List.filter_eq_self.mpr (by
            intro a ha
            have ha2 : a ∈ sweepCandidates env := by rw [hc]; exact ha
            simpa using sweepCandidates_strip_ne env a ha2)
        rw [hkeep, if_neg (List.cons_ne_nil r rs)]
  obtain ⟨cfg, vr, std, hand, raw⟩ := env
  dsimp only at hv
  subst hv
  cases cfg
  · show (imageLocalPath _, true) = _
    rw [hloc]
  · show (if vt ≠ "" ∧ (strip vt).length > 20
      then (vt, false) else (imageLocalPath _, true)) = _
    rw [if_neg (fun hh => absurd hh.2 (not_lt.mpr hshort)), hloc]

/-- Witness for the amended C6 at a concrete environment. -/
theorem image_candidates_selection_witness :
    (strip "short").length ≤ 20 ∧
    _extract_from_image ⟨true, some "short", some "x", some "", "zz"⟩ =
      ((if sweepCandidates ⟨true, some "short", some "x", some "", "zz"⟩ = []
        then strip "zz"
        else select (sweepCandidates ⟨true, some "short", some "x", some "", "zz"⟩)), true) :=
  ⟨by decide, image_candidates_selection _ _ rfl (by decide)⟩

end OCRService
